import Mathlib

/-!
Verification of the bundle patch engine of `scripts/patch-slash-commands.js`
(the post-build patcher that force-enables the `codex-extension-slash-commands`
Statsig gate for the Electron build).

The JavaScript is shallowly embedded: JavaScript values that the engine
inspects are modelled by the inductive type `JsVal` (JS objects become
ordered field lists, arrays become lists); every function of the script
(`walk`, `getPropertyName`, the shipped rule's `match`, `collectPatches`,
`scanMatches`, `countAllOccurrences`, `locateBundle`, and the apply branch of
`main`) is translated into a computable Lean function over this model.
Source text is modelled as `List Char` (`Str`), matching JavaScript string
indexing for the ASCII texts involved.
-/

/-- Source text, modelled as a list of characters. -/
abbrev Str := List Char

/-- A JavaScript value as inspected by the patch engine: `null`, `undefined`,
booleans, numbers (the engine only meets integral offsets), strings, arrays,
and plain objects with ordered string-keyed fields. -/
inductive JsVal where
  | vnull
  | vundefined
  | vbool (b : Bool)
  | vnum (n : Int)
  | vstr (s : String)
  | varr (items : List JsVal)
  | vobj (fields : List (String × JsVal))

mutual
/-- Structural boolean equality on `JsVal` (mirrors JavaScript `===` for the
primitive values the rule compares; the engine only ever compares against
string literals). -/
def beqJ : JsVal → JsVal → Bool
  | .vnull, .vnull => true
  | .vundefined, .vundefined => true
  | .vbool a, .vbool b => a = b
  | .vnum a, .vnum b => a = b
  | .vstr a, .vstr b => a = b
  | .varr a, .varr b => beqL a b
  | .vobj a, .vobj b => beqF a b
  | _, _ => false
def beqL : List JsVal → List JsVal → Bool
  | [], [] => true
  | x :: xs, y :: ys => beqJ x y && beqL xs ys
  | _, _ => false
def beqF : List (String × JsVal) → List (String × JsVal) → Bool
  | [], [] => true
  | (k, v) :: xs, (k', v') :: ys => k = k' && beqJ v v' && beqF xs ys
  | _, _ => false
end

mutual
theorem beqJ_iff_eq : ∀ a b : JsVal, beqJ a b = true ↔ a = b
  | .vnull, b => by cases b <;> simp [beqJ]
  | .vundefined, b => by cases b <;> simp [beqJ]
  | .vbool x, b => by cases b <;> simp [beqJ]
  | .vnum x, b => by cases b <;> simp [beqJ]
  | .vstr x, b => by cases b <;> simp [beqJ]
  | .varr xs, b => by
      cases b <;> simp [beqJ]
      exact beqL_iff_eq xs _
  | .vobj fs, b => by
      cases b <;> simp [beqJ]
      exact beqF_iff_eq fs _
theorem beqL_iff_eq : ∀ xs ys : List JsVal, beqL xs ys = true ↔ xs = ys
  | [], ys => by cases ys <;> simp [beqL]
  | x :: xs, ys => by
      cases ys with
      | nil => simp [beqL]
      | cons y ys => simp [beqL, beqJ_iff_eq x y, beqL_iff_eq xs ys]
theorem beqF_iff_eq : ∀ fs gs : List (String × JsVal), beqF fs gs = true ↔ fs = gs
  | [], gs => by cases gs <;> simp [beqF]
  | (k, v) :: fs, gs => by
      cases gs with
      | nil => simp [beqF]
      | cons g gs =>
        obtain ⟨k', v'⟩ := g
        simp [beqF, beqJ_iff_eq v v', beqF_iff_eq fs gs, and_assoc]
end

instance : DecidableEq JsVal := fun a b =>
  if h : beqJ a b = true then .isTrue ((beqJ_iff_eq a b).mp h)
  else .isFalse (fun he => h ((beqJ_iff_eq a b).mpr he))

/-- JavaScript property lookup in an ordered field list (`undefined` on a
missing key). -/
def lookupF : List (String × JsVal) → String → JsVal
  | [], _ => .vundefined
  | (k', v) :: rest, k => if k' = k then v else lookupF rest k

/-- JavaScript property access `v[k]`: field lookup on objects, `length` on
arrays and strings, `undefined` otherwise. -/
def getF : JsVal → String → JsVal
  | .vobj fields, k => lookupF fields k
  | .varr items, k => if k = "length" then .vnum items.length else .vundefined
  | .vstr s, k => if k = "length" then .vnum s.length else .vundefined
  | _, _ => .vundefined

/-- JavaScript index access `v[i]` for a numeric literal index. -/
def getIdx : JsVal → Nat → JsVal
  | .varr items, i => items.getD i .vundefined
  | .vobj fields, i => lookupF fields (toString i)
  | _, _ => .vundefined

/-- JavaScript truthiness of the modelled values. -/
def truthy : JsVal → Bool
  | .vnull => false
  | .vundefined => false
  | .vbool b => b
  | .vnum n => n ≠ 0
  | .vstr s => s ≠ ""
  | .varr _ => true
  | .vobj _ => true

/-- The test `child && typeof child.type === "string"` that guards every
recursive call of `walk`. -/
def isTypedNode (v : JsVal) : Bool :=
  match getF v "type" with
  | .vstr _ => true
  | _ => false

/-!
## The tree walker

`walk(node, visitor)` visits `node`, then for every own field: if the field
holds an array it recurses into exactly the array elements carrying a string
`type` tag, and otherwise it recurses into the field value exactly when that
value carries a string `type` tag.  `walkVisits` returns the list of nodes on
which the visitor is invoked, in invocation order; the recursive
`walk(child, visitor)` calls are inlined (a visited child is itself an object,
so `walk` visits it and then loops over its fields).
-/

mutual
def walkFields : List (String × JsVal) → List JsVal
  | [] => []
  | (_, c) :: rest => walkVal c ++ walkFields rest
def walkVal : JsVal → List JsVal
  | .varr items => walkItems items
  | .vobj fs => if isTypedNode (.vobj fs) then .vobj fs :: walkFields fs else []
  | _ => []
def walkItems : List JsVal → List JsVal
  | [] => []
  | it :: rest => walkItem it ++ walkItems rest
def walkItem : JsVal → List JsVal
  | .vobj fs => if isTypedNode (.vobj fs) then .vobj fs :: walkFields fs else []
  | _ => []
end

/-- The visit sequence of `walk(v, visitor)`: `walk` returns without visiting
on non-objects, and on an object (or array) visits it and then walks its
fields (respectively elements, whose keys `Object.keys` also enumerates). -/
def walkVisits (v : JsVal) : List JsVal :=
  match v with
  | .vobj fields => v :: walkFields fields
  | .varr items => v :: items.flatMap walkVal
  | _ => []

/-!
## JavaScript string slicing and the shipped rule
-/

/-- Normalise a JavaScript slice index against a string of length `len`
(negative indices count from the end, out-of-range indices clamp). -/
def clampIdx (len : Nat) (x : Int) : Nat :=
  if x < 0 then ((len : Int) + x).toNat else min x.toNat len

/-- Two-argument `String.prototype.slice`. -/
def jsSlice (s : Str) (a b : Int) : Str :=
  (s.take (clampIdx s.length b)).drop (clampIdx s.length a)

/-- One-argument `String.prototype.slice` (to the end of the string). -/
def jsSliceFrom (s : Str) (a : Int) : Str :=
  s.drop (clampIdx s.length a)

/-- Numeric coercion of the values the engine feeds to slicing and sorting;
every offset the rule produces is a number (`vnum`), the default covers the
remaining values. -/
def numOr (v : JsVal) (d : Int) : Int :=
  match v with
  | .vnum n => n
  | _ => d

/-- `haystack.includes(needle)`: the needle occurs contiguously somewhere in
the haystack. -/
def isSubstr (needle hay : Str) : Bool :=
  (List.range (hay.length + 1)).any (fun i => needle.isPrefixOf (hay.drop i))

theorem isSubstr_iff (n h : Str) : isSubstr n h = true ↔ n <:+: h := by
  unfold isSubstr
  rw [List.any_eq_true]
  constructor
  · rintro ⟨i, _, hp⟩
    rw [List.isPrefixOf_iff_prefix] at hp
    obtain ⟨t, ht⟩ := hp
    exact ⟨h.take i, t, by rw [List.append_assoc, ht, List.take_append_drop]⟩
  · rintro ⟨s, t, rfl⟩
    refine ⟨s.length, ?_, ?_⟩
    · rw [List.mem_range]
      simp [List.length_append]
      omega
    · rw [List.isPrefixOf_iff_prefix]
      refine ⟨t, ?_⟩
      rw [List.append_assoc, List.drop_left]

/-- `getPropertyName(memberExpr)` from the script: the `property.name` of a
non-computed member with identifier property, the `property.value` of a
computed member with literal property, otherwise `null`. -/
def getPropertyName (memberExpr : JsVal) : JsVal :=
  if !truthy memberExpr || !truthy (getF memberExpr "property") then .vnull
  else if !truthy (getF memberExpr "computed")
       && beqJ (getF (getF memberExpr "property") "type") (.vstr "Identifier") then
    getF (getF memberExpr "property") "name"
  else if truthy (getF memberExpr "computed")
       && beqJ (getF (getF memberExpr "property") "type") (.vstr "Literal") then
    getF (getF memberExpr "property") "value"
  else .vnull

def GATE_NAME : String := "codex-extension-slash-commands"

def ELECTRON_FORCE_EXPR : Str := "window.codexWindowType===\"electron\"".toList

/-- The record returned by a successful rule match: `{start, end, replacement,
original}` (the JavaScript field `end` is named `stop` here because `end` is a
Lean keyword; `start`/`stop` carry the raw values read off the node). -/
structure MatchResult where
  start : JsVal
  stop : JsVal
  replacement : Str
  original : Str
deriving DecidableEq

/-- `args.length < 1`: a numeric `length` strictly below one (a non-numeric
`length`, e.g. `undefined`, compares false in JavaScript). -/
def lengthLtOne (args : JsVal) : Bool :=
  match getF args "length" with
  | .vnum n => n < 1
  | _ => false

/-- The structural half of the rule's match conditions, as one short-circuit
conjunction in the order of the script's early returns: the node is a
`VariableDeclarator`, its `init` is a `CallExpression`, the callee is a
`MemberExpression` whose property name is `useGateValue`, and the first
argument is a `Literal` with value `GATE_NAME`. -/
def ruleStructOk (node : JsVal) : Bool :=
  beqJ (getF node "type") (.vstr "VariableDeclarator")
  && truthy (getF node "init")
  && beqJ (getF (getF node "init") "type") (.vstr "CallExpression")
  && truthy (getF (getF node "init") "callee")
  && beqJ (getF (getF (getF node "init") "callee") "type") (.vstr "MemberExpression")
  && beqJ (getPropertyName (getF (getF node "init") "callee")) (.vstr "useGateValue")
  && truthy (getF (getF node "init") "arguments")
  && !lengthLtOne (getF (getF node "init") "arguments")
  && beqJ (getF (getIdx (getF (getF node "init") "arguments") 0) "type") (.vstr "Literal")
  && beqJ (getF (getIdx (getF (getF node "init") "arguments") 0) "value") (.vstr GATE_NAME)

/-- The `match` function of the shipped rule
`enable_slash_commands_in_electron`: the structural conditions of
`ruleStructOk` followed by the idempotence guard — the initializer text must
not already contain `window.codexWindowType`; on success it patches exactly
the `init` range `[init.start, init.end)` with
`(<original>||<ELECTRON_FORCE_EXPR>)`. -/
def ruleMatchFn (node : JsVal) (source : Str) : Option MatchResult :=
  if !ruleStructOk node then none else
  if isSubstr "window.codexWindowType".toList
       (jsSlice source (numOr (getF (getF node "init") "start") 0)
                       (numOr (getF (getF node "init") "end") 0)) then none else
  some ⟨getF (getF node "init") "start", getF (getF node "init") "end",
        "(".toList
          ++ jsSlice source (numOr (getF (getF node "init") "start") 0)
                            (numOr (getF (getF node "init") "end") 0)
          ++ "||".toList ++ ELECTRON_FORCE_EXPR ++ ")".toList,
        jsSlice source (numOr (getF (getF node "init") "start") 0)
                       (numOr (getF (getF node "init") "end") 0)⟩

/-- A patch rule: identifier, description, match function. -/
structure Rule where
  id : String
  description : String
  matchFn : JsVal → Str → Option MatchResult

def slashCommandsRule : Rule :=
  ⟨"enable_slash_commands_in_electron",
   "useGateValue(gate) becomes (call || electron-force-expression)",
   ruleMatchFn⟩

/-- The rule table `RULES` of the script (a single shipped rule). -/
def RULES : List Rule := [slashCommandsRule]

/-!
## Patch collection, scanning, counting, and the apply-mode main flow
-/

/-- A collected patch: a `MatchResult` spread together with the matching
rule's id (`{...result, ruleId: rule.id}`). -/
structure Patch where
  start : JsVal
  stop : JsVal
  replacement : Str
  original : Str
  ruleId : String
deriving DecidableEq

/-- A reporting detail record accumulated alongside each patch. -/
structure Detail where
  ruleId : String
  position : JsVal
  change : Str
deriving DecidableEq

/-- The mutable state of `collectPatches`: the `patches` and `details` arrays
and the `seen` set of start offsets (modelled as the list of values in
insertion order). -/
structure CollectAcc where
  patches : List Patch
  details : List Detail
  seen : List JsVal
deriving DecidableEq

/-- The body of the rule loop inside the `collectPatches` visitor: record a
match only when its `start` was not already seen. -/
def collectRuleStep (source : Str) (node : JsVal) (acc : CollectAcc) (rule : Rule) :
    CollectAcc :=
  match rule.matchFn node source with
  | some r =>
    if r.start ∈ acc.seen then acc
    else ⟨acc.patches ++ [⟨r.start, r.stop, r.replacement, r.original, rule.id⟩],
          acc.details ++ [⟨rule.id, r.start, r.original ++ " → ".toList ++ r.replacement⟩],
          acc.seen ++ [r.start]⟩
  | none => acc

/-- One visitor invocation of `collectPatches`: try every rule on the node. -/
def collectVisit (source : Str) (acc : CollectAcc) (node : JsVal) : CollectAcc :=
  RULES.foldl (collectRuleStep source node) acc

/-- `collectPatches(ast, source)`: fold the visitor over the walk order. -/
def collectPatches (ast : JsVal) (source : Str) : CollectAcc :=
  (walkVisits ast).foldl (collectVisit source) ⟨[], [], []⟩

/-- A check-mode match report of `scanMatches`. -/
structure ScanMatch where
  ruleId : String
  position : JsVal
  original : Str
  context : Str
  wouldPatch : Bool
deriving DecidableEq

/-- `CONTEXT_CHARS` of `scanMatches`. -/
def CONTEXT_CHARS : Int := 60

/-- The body of the rule loop inside the `scanMatches` visitor (same
match/dedup logic as `collectRuleStep`, additionally capturing a context
window of `CONTEXT_CHARS` characters around the match). -/
def scanRuleStep (source : Str) (node : JsVal) (acc : List ScanMatch × List JsVal)
    (rule : Rule) : List ScanMatch × List JsVal :=
  match rule.matchFn node source with
  | some r =>
    if r.start ∈ acc.2 then acc
    else
      (acc.1 ++ [⟨rule.id, r.start, r.original,
                  jsSlice source (max 0 (numOr r.start 0 - CONTEXT_CHARS))
                                 (min (source.length : Int) (numOr r.stop 0 + CONTEXT_CHARS)),
                  true⟩],
       acc.2 ++ [r.start])
  | none => acc

/-- One visitor invocation of `scanMatches`: try every rule on the node. -/
def scanVisit (source : Str) (acc : List ScanMatch × List JsVal) (node : JsVal) :
    List ScanMatch × List JsVal :=
  RULES.foldl (scanRuleStep source node) acc

/-- `scanMatches(ast, source).matches`. -/
def scanMatches (ast : JsVal) (source : Str) : List ScanMatch :=
  ((walkVisits ast).foldl (scanVisit source) ([], [])).1

/-- The needle `"${GATE_NAME}"` of `countAllOccurrences` — the gate name
together with the surrounding double quotes. -/
def gateNeedle : Str := "\"codex-extension-slash-commands\"".toList

/-- `countAllOccurrences(source)`: the `indexOf` loop advances by at least one
character after each hit and therefore counts exactly the positions at which
the needle occurs in the raw text. -/
def countAllOccurrences (source : Str) : Nat :=
  (List.range (source.length + 1)).countP (fun i => gateNeedle.isPrefixOf (source.drop i))

/-- Stable insertion of a patch into a list sorted by descending numeric
`start` (models `patches.sort((a, b) => b.start - a.start)`). -/
def insertByStartDesc (p : Patch) : List Patch → List Patch
  | [] => [p]
  | q :: rest =>
    if numOr q.start 0 < numOr p.start 0 then p :: q :: rest
    else q :: insertByStartDesc p rest

def sortPatchesDesc (ps : List Patch) : List Patch := ps.foldr insertByStartDesc []

/-- Outcome of one apply-mode run: the process exit code and the text written
back to the bundle file (`none` when the file is left untouched). -/
structure ApplyResult where
  exitCode : Nat
  written : Option Str
deriving DecidableEq

/-- The apply branch of `main` (after locating, reading and parsing the
bundle): collect patches; with no patches, exit 0 when the raw text has no
gate reference or already contains `ELECTRON_FORCE_EXPR`, and exit 1 (drift)
otherwise; with patches, splice them in descending `start` order and write. -/
def applyRun (ast : JsVal) (source : Str) : ApplyResult :=
  let ps := (collectPatches ast source).patches
  if ps = [] then
    if countAllOccurrences source = 0 then ⟨0, none⟩
    else if isSubstr ELECTRON_FORCE_EXPR source then ⟨0, none⟩
    else ⟨1, none⟩
  else
    ⟨0, some ((sortPatchesDesc ps).foldl
        (fun c p => jsSlice c 0 (numOr p.start 0) ++ p.replacement ++ jsSliceFrom c (numOr p.stop 0))
        source)⟩

/-- The bundle text after an apply run: the spliced text when one was written,
the unchanged input otherwise. -/
def applyOutput (ast : JsVal) (source : Str) : Str :=
  match (applyRun ast source).written with
  | some c => c
  | none => source

/-!
## The bundle locator
-/

/-- Result of `locateBundle`: either `process.exit(1)` or a bundle path. -/
inductive LocateResult where
  | exitFail
  | found (path : Str)
deriving DecidableEq

/-- JavaScript regular-expression line terminators (which `.` does not
match). -/
def isLineTerminator (c : Char) : Bool :=
  c = Char.ofNat 10 || c = Char.ofNat 13 || c = Char.ofNat 8232 || c = Char.ofNat 8233

/-- The test `/^index-.*\.js$/.test(f)`: the whole name is `index-`, then any
characters other than line terminators, then `.js`. -/
def matchesIndexJs (f : Str) : Bool :=
  decide (9 ≤ f.length)
  && List.isPrefixOf "index-".toList f
  && List.isSuffixOf ".js".toList f
  && ((f.drop 6).take (f.length - 9)).all (fun c => !isLineTerminator c)

def assetsDir : Str := "src/webview/assets/".toList

/-- `locateBundle()`, abstracted over the file-system facts it reads: whether
the assets directory exists and the list of directory entries.  It fails the
process unless exactly one entry matches `index-*.js`. -/
def locateBundle (dirExists : Bool) (entries : List Str) : LocateResult :=
  if !dirExists then .exitFail
  else
    let files := entries.filter matchesIndexJs
    if files.length = 0 then .exitFail
    else if 1 < files.length then .exitFail
    else .found (assetsDir ++ files.headD [])

/-!
## Concrete inputs

Hand-built ESTree trees, exactly as `acorn.parse(source, {ecmaVersion:
"latest", sourceType: "module"})` produces them for the given sources.
-/

/-- The spec's example input: a bare-identifier call (no receiver object). -/
def c1Src : Str :=
  "const flag = useGateValue(\"codex-extension-slash-commands\");".toList

def c1Lit : JsVal :=
  .vobj [("type", .vstr "Literal"), ("start", .vnum 26), ("end", .vnum 58),
         ("value", .vstr "codex-extension-slash-commands"),
         ("raw", .vstr "\"codex-extension-slash-commands\"")]

def c1Callee : JsVal :=
  .vobj [("type", .vstr "Identifier"), ("start", .vnum 13), ("end", .vnum 25),
         ("name", .vstr "useGateValue")]

def c1Call : JsVal :=
  .vobj [("type", .vstr "CallExpression"), ("start", .vnum 13), ("end", .vnum 59),
         ("callee", c1Callee), ("arguments", .varr [c1Lit]), ("optional", .vbool false)]

/-- The `VariableDeclarator` node of `c1Src`. -/
def c1Decl : JsVal :=
  .vobj [("type", .vstr "VariableDeclarator"), ("start", .vnum 6), ("end", .vnum 59),
         ("id", .vobj [("type", .vstr "Identifier"), ("start", .vnum 6), ("end", .vnum 10),
                       ("name", .vstr "flag")]),
         ("init", c1Call)]

def c1Ast : JsVal :=
  .vobj [("type", .vstr "Program"), ("start", .vnum 0), ("end", .vnum 60),
         ("body", .varr [.vobj [("type", .vstr "VariableDeclaration"), ("start", .vnum 0),
                                ("end", .vnum 60), ("declarations", .varr [c1Decl]),
                                ("kind", .vstr "const")]]),
         ("sourceType", .vstr "module")]

/-- The member-call form of the example input, which is the shape the shipped
rule actually requires. -/
def c1mSrc : Str :=
  "const flag = w.useGateValue(\"codex-extension-slash-commands\");".toList

def c1mLit : JsVal :=
  .vobj [("type", .vstr "Literal"), ("start", .vnum 28), ("end", .vnum 60),
         ("value", .vstr "codex-extension-slash-commands"),
         ("raw", .vstr "\"codex-extension-slash-commands\"")]

def c1mCallee : JsVal :=
  .vobj [("type", .vstr "MemberExpression"), ("start", .vnum 13), ("end", .vnum 27),
         ("object", .vobj [("type", .vstr "Identifier"), ("start", .vnum 13), ("end", .vnum 14),
                           ("name", .vstr "w")]),
         ("property", .vobj [("type", .vstr "Identifier"), ("start", .vnum 15), ("end", .vnum 27),
                             ("name", .vstr "useGateValue")]),
         ("computed", .vbool false), ("optional", .vbool false)]

def c1mCall : JsVal :=
  .vobj [("type", .vstr "CallExpression"), ("start", .vnum 13), ("end", .vnum 61),
         ("callee", c1mCallee), ("arguments", .varr [c1mLit]), ("optional", .vbool false)]

/-- The `VariableDeclarator` node of `c1mSrc`. -/
def c1mDecl : JsVal :=
  .vobj [("type", .vstr "VariableDeclarator"), ("start", .vnum 6), ("end", .vnum 61),
         ("id", .vobj [("type", .vstr "Identifier"), ("start", .vnum 6), ("end", .vnum 10),
                       ("name", .vstr "flag")]),
         ("init", c1mCall)]

def c1mAst : JsVal :=
  .vobj [("type", .vstr "Program"), ("start", .vnum 0), ("end", .vnum 62),
         ("body", .varr [.vobj [("type", .vstr "VariableDeclaration"), ("start", .vnum 0),
                                ("end", .vnum 62), ("declarations", .varr [c1mDecl]),
                                ("kind", .vstr "const")]]),
         ("sourceType", .vstr "module")]

/-- The initializer text the rule extracts from `c1mSrc`. -/
def c1mOriginal : Str :=
  "w.useGateValue(\"codex-extension-slash-commands\")".toList

/-- The replacement the rule produces for `c1mSrc`. -/
def c1mReplacement : Str :=
  "(w.useGateValue(\"codex-extension-slash-commands\")||window.codexWindowType===\"electron\")".toList

/-- The whole patched bundle text for `c1mSrc`. -/
def c1mExpectedOut : Str :=
  "const flag = (w.useGateValue(\"codex-extension-slash-commands\")||window.codexWindowType===\"electron\");".toList

/-- The parse of a source whose whole content is a single line comment:
a `Program` with an empty body (`n` is the source length). -/
def emptyProgram (n : Nat) : JsVal :=
  .vobj [("type", .vstr "Program"), ("start", .vnum 0), ("end", .vnum n),
         ("body", .varr []), ("sourceType", .vstr "module")]

/-- A comment-only source carrying both the quoted gate name and the
already-patched marker expression. -/
def commentMarkerSrc : Str :=
  "// \"codex-extension-slash-commands\" window.codexWindowType===\"electron\"".toList

/-- A comment-only source carrying the quoted gate name and nothing else. -/
def commentOnlySrc : Str :=
  "// note \"codex-extension-slash-commands\" in a comment".toList

/-- The single-quote character (written numerically to keep the sources
readable as data). -/
def sqc : Char := Char.ofNat 39

/-- The member-call input with the gate literal written in single quotes. -/
def c10Src : Str :=
  "const flag = w.useGateValue(".toList ++ [sqc]
    ++ "codex-extension-slash-commands".toList ++ [sqc] ++ ");".toList

def c10Lit : JsVal :=
  .vobj [("type", .vstr "Literal"), ("start", .vnum 28), ("end", .vnum 60),
         ("value", .vstr "codex-extension-slash-commands"),
         ("raw", .vstr (String.mk ([sqc] ++ "codex-extension-slash-commands".toList ++ [sqc])))]

def c10Call : JsVal :=
  .vobj [("type", .vstr "CallExpression"), ("start", .vnum 13), ("end", .vnum 61),
         ("callee", c1mCallee), ("arguments", .varr [c10Lit]), ("optional", .vbool false)]

/-- The `VariableDeclarator` node of `c10Src`. -/
def c10Decl : JsVal :=
  .vobj [("type", .vstr "VariableDeclarator"), ("start", .vnum 6), ("end", .vnum 61),
         ("id", .vobj [("type", .vstr "Identifier"), ("start", .vnum 6), ("end", .vnum 10),
                       ("name", .vstr "flag")]),
         ("init", c10Call)]

/-- The initializer text the rule extracts from `c10Src`. -/
def c10Original : Str :=
  "w.useGateValue(".toList ++ [sqc] ++ "codex-extension-slash-commands".toList ++ [sqc] ++ ")".toList

/-!
## The text splicer over numeric offsets (claim C4)

Every patch the engine splices carries the numeric `start`/`end` offsets that
the rule read off the parsed node, so the splice loop of `main` is analysed
over patches with natural-number offsets.
-/

/-- A patch as consumed by the splice loop: a `[start, end)` range and a
replacement text. -/
structure TextPatch where
  start : Nat
  stop : Nat
  replacement : Str
deriving DecidableEq

/-- One iteration of the splice loop of `main`:
`code = code.slice(0, p.start) + p.replacement + code.slice(p.end)`. -/
def spliceStep (code : Str) (p : TextPatch) : Str :=
  jsSlice code 0 (p.start : Int) ++ p.replacement ++ jsSliceFrom code (p.stop : Int)

/-- The splice loop: apply the patches sequentially, in list order. -/
def spliceAll (code : Str) (ps : List TextPatch) : Str :=
  ps.foldl spliceStep code

/-- The specification's simultaneous replacement, defined from the spec's
words: for ranges listed in ascending order, emit the untouched text between
`pos` and the next range, then that range's replacement, and so on, all
against the original text.  `simSplice s 0 ps` replaces all ranges of `ps` in
`s` at once. -/
def simSplice (s : Str) (pos : Nat) : List TextPatch → Str
  | [] => s.drop pos
  | p :: rest => (s.drop pos).take (p.start - pos) ++ p.replacement ++ simSplice s p.stop rest

theorem take_min_length (c : Str) (n : Nat) : c.take (min n c.length) = c.take n := by
  rw [List.take_eq_take]
  omega

theorem drop_min_length (c : Str) (n : Nat) : c.drop (min n c.length) = c.drop n := by
  rcases Nat.le_total n c.length with h | h
  · rw [Nat.min_eq_left h]
  · rw [Nat.min_eq_right h, List.drop_eq_nil_of_le h, List.drop_eq_nil_of_le]
    omega

theorem clampIdx_nat (len n : Nat) : clampIdx len (n : Int) = min n len := by
  unfold clampIdx
  rw [if_neg (by omega)]
  simp

theorem jsSlice_zero_nat (c : Str) (n : Nat) : jsSlice c 0 (n : Int) = c.take n := by
  have h0 : clampIdx c.length 0 = 0 := by simp [clampIdx]
  rw [jsSlice, h0, clampIdx_nat, List.drop_zero, take_min_length]

theorem jsSliceFrom_nat (c : Str) (n : Nat) : jsSliceFrom c (n : Int) = c.drop n := by
  rw [jsSliceFrom, clampIdx_nat, drop_min_length]

theorem spliceAll_desc_aux (s : Str) :
    ∀ (ps : List TextPatch) (k : Nat),
      List.Pairwise (fun p q => p.stop ≤ q.start) ps →
      (∀ p ∈ ps, p.start ≤ p.stop ∧ p.stop ≤ s.length) →
      (∀ p ∈ ps, k ≤ p.start) →
      spliceAll s ps.reverse = s.take k ++ simSplice s k ps := by
  intro ps
  induction ps with
  | nil => intro k _ _ _; simp [spliceAll, simSplice]
  | cons p rest ih =>
    intro k hord hb hk
    have hps : p.start ≤ p.stop ∧ p.stop ≤ s.length := hb p (by simp)
    have hT : spliceAll s rest.reverse = s.take p.stop ++ simSplice s p.stop rest := by
      refine ih p.stop hord.of_cons (fun q hq => hb q (by simp [hq])) ?_
      intro q hq
      exact List.rel_of_pairwise_cons hord hq
    have hlen : (s.take p.stop).length = p.stop := by
      simp [Nat.min_eq_left hps.2]
    calc spliceAll s (p :: rest).reverse
        = spliceStep (spliceAll s rest.reverse) p := by
          simp [spliceAll, List.foldl_append]
      _ = s.take p.start ++ p.replacement ++ simSplice s p.stop rest := by
          rw [hT, spliceStep, jsSlice_zero_nat, jsSliceFrom_nat]
          rw [List.take_append_of_le_length (by omega),
              List.take_take, Nat.min_eq_left hps.1]
          have hdrop := List.drop_left (s.take p.stop) (simSplice s p.stop rest)
          rw [hlen] at hdrop
          rw [hdrop]
      _ = s.take k ++ simSplice s k (p :: rest) := by
          have hkp : k ≤ p.start := hk p (by simp)
          rw [simSplice, ← List.append_assoc, ← List.append_assoc]
          congr 2
          rw [← List.take_add s k (p.start - k)]
          congr 1
          omega

/-- Claim C4: for every source text and every patch set whose `[start, end)`
ranges are pairwise non-overlapping (listed here in ascending order, so the
reversed list is the descending-`start` order in which `main` splices) and
within bounds, sequentially running the splice loop
`code = code.slice(0, p.start) + p.replacement + code.slice(p.end)` over the
descending order produces the same final text as replacing all ranges
simultaneously in the original text. -/
theorem c4_splice_desc_eq_simultaneous (s : Str) (ps : List TextPatch)
    (hord : List.Pairwise (fun p q => p.stop ≤ q.start) ps)
    (hbounds : ∀ p ∈ ps, p.start ≤ p.stop ∧ p.stop ≤ s.length) :
    spliceAll s ps.reverse = simSplice s 0 ps := by
  have h := spliceAll_desc_aux s ps 0 hord hbounds (fun p _ => Nat.zero_le _)
  simpa using h

/-- Witness for C4 at a concrete input: two non-overlapping patches on a
ten-character text. -/
theorem c4_splice_desc_eq_simultaneous_witness :
    List.Pairwise (fun p q : TextPatch => p.stop ≤ q.start)
      [⟨2, 4, "XY".toList⟩, ⟨6, 7, "Z".toList⟩]
    ∧ (∀ p ∈ ([⟨2, 4, "XY".toList⟩, ⟨6, 7, "Z".toList⟩] : List TextPatch),
        p.start ≤ p.stop ∧ p.stop ≤ ("abcdefghij".toList : Str).length)
    ∧ spliceAll "abcdefghij".toList
        ([⟨2, 4, "XY".toList⟩, ⟨6, 7, "Z".toList⟩] : List TextPatch).reverse
      = simSplice "abcdefghij".toList 0 [⟨2, 4, "XY".toList⟩, ⟨6, 7, "Z".toList⟩] :=
  ⟨by decide, by decide,
   c4_splice_desc_eq_simultaneous "abcdefghij".toList
     [⟨2, 4, "XY".toList⟩, ⟨6, 7, "Z".toList⟩] (by decide) (by decide)⟩

/-!
## Claims C1, C5, C6, C9, C10
-/

/-- Claim C1, counterexample: on the spec's example input
`const flag = useGateValue("codex-extension-slash-commands");` the callee is a
bare `Identifier`, not the `MemberExpression` the rule requires, so the match
function returns `null` on the corresponding `VariableDeclarator` node and the
apply run does not rewrite anything (it takes the drift exit instead). -/
theorem c1_bare_call_counterexample :
    ruleMatchFn c1Decl c1Src = none ∧ applyRun c1Ast c1Src = ⟨1, none⟩ :=
  ⟨rfl, rfl⟩

/-- Claim C1, amended: for an input bundle containing the member-call form
`const flag = w.useGateValue("codex-extension-slash-commands");` (the shape
the rule's `MemberExpression` check requires), the match function returns the
MatchResult for the corresponding `VariableDeclarator` node — the initializer
range `[13, 61)` with replacement
`(w.useGateValue("codex-extension-slash-commands")||window.codexWindowType==="electron")`
— and the apply run splices exactly that output text and writes it. -/
theorem c1_member_call_rewrites :
    ruleMatchFn c1mDecl c1mSrc =
      some ⟨.vnum 13, .vnum 61,
        "(w.useGateValue(\"codex-extension-slash-commands\")||window.codexWindowType===\"electron\")".toList,
        "w.useGateValue(\"codex-extension-slash-commands\")".toList⟩
    ∧ applyRun c1mAst c1mSrc =
      ⟨0, some "const flag = (w.useGateValue(\"codex-extension-slash-commands\")||window.codexWindowType===\"electron\");".toList⟩ :=
  ⟨rfl, rfl⟩

/-- Claim C5, counterexample: an input whose raw text contains the quoted gate
string (`countAllOccurrences` is positive) and on which no rule matches, yet
the apply run exits 0 without writing — because the text also contains
`ELECTRON_FORCE_EXPR`, the already-patched branch of `main` returns before the
drift exit. -/
theorem c5_marker_present_counterexample :
    0 < countAllOccurrences commentMarkerSrc
    ∧ (collectPatches (emptyProgram 72) commentMarkerSrc).patches = []
    ∧ applyRun (emptyProgram 72) commentMarkerSrc = ⟨0, none⟩ :=
  ⟨by decide, rfl, rfl⟩

/-- Claim C5, amended: in apply mode, when the input text contains the target
literal flag string, no rule matches any node, and the text does not already
contain the marker expression `window.codexWindowType==="electron"`, the
engine exits 1 and does not write the file; with the marker present it instead
reports already-enabled and exits 0 (still without writing). -/
theorem c5_drift_exit_nonzero (ast : JsVal) (s : Str)
    (h1 : (collectPatches ast s).patches = [])
    (h2 : 0 < countAllOccurrences s)
    (h3 : isSubstr ELECTRON_FORCE_EXPR s = false) :
    applyRun ast s = ⟨1, none⟩ := by
  unfold applyRun
  rw [h1]
  rw [if_pos rfl, if_neg (by omega), if_neg (by simp [h3])]

/-- Witness for C5 (amended) at a concrete input: the comment-only source. -/
theorem c5_drift_exit_nonzero_witness :
    (collectPatches (emptyProgram 53) commentOnlySrc).patches = []
    ∧ 0 < countAllOccurrences commentOnlySrc
    ∧ isSubstr ELECTRON_FORCE_EXPR commentOnlySrc = false
    ∧ applyRun (emptyProgram 53) commentOnlySrc = ⟨1, none⟩ :=
  ⟨rfl, by decide, rfl,
   c5_drift_exit_nonzero (emptyProgram 53) commentOnlySrc rfl (by decide) rfl⟩

/-- Claim C6, counterexample: when the literal flag string occurs only inside
an unrelated comment, the engine indeed finds zero structural matches, but the
drift warning IS triggered: `countAllOccurrences` scans the raw text (comments
included), so the apply run exits 1. -/
theorem c6_comment_occurrence_counterexample :
    countAllOccurrences commentOnlySrc = 1
    ∧ (collectPatches (emptyProgram 53) commentOnlySrc).patches = []
    ∧ (applyRun (emptyProgram 53) commentOnlySrc).exitCode = 1 :=
  ⟨rfl, rfl, rfl⟩

/-- Claim C6, amended: for an input text containing the literal flag string
only inside an unrelated comment, the engine finds zero structural matches in
both modes, but since `countAllOccurrences` counts raw substring occurrences
without distinguishing comments, the occurrence is treated as drift: the apply
run exits 1 and writes nothing (the marker expression being absent). -/
theorem c6_comment_only_reports_drift :
    scanMatches (emptyProgram 53) commentOnlySrc = []
    ∧ countAllOccurrences commentOnlySrc = 1
    ∧ applyRun (emptyProgram 53) commentOnlySrc = ⟨1, none⟩ :=
  ⟨rfl, rfl, rfl⟩

/-- Claim C9: the bundle locator fails closed — it returns a path exactly when
the assets directory exists and exactly one entry matches `index-*.js`, and
terminates the process (modelled by `LocateResult.exitFail`) in every other
case, including zero and multiple candidates. -/
theorem c9_locateBundle_fail_closed (d : Bool) (entries : List Str) :
    locateBundle d entries =
      (if d = true ∧ (entries.filter matchesIndexJs).length = 1
       then .found (assetsDir ++ (entries.filter matchesIndexJs).headD [])
       else .exitFail) := by
  unfold locateBundle
  cases d
  · simp
  · simp only [Bool.not_true, Bool.false_eq_true, if_false, true_and]
    split_ifs with h1 h2 h3 <;> try rfl
    · omega
    · omega
    · omega

/-- Claim C10: `countAllOccurrences` counts only double-quoted occurrences of
the gate name (its needle is the gate name with surrounding double quotes),
while the rule compares the parsed literal's value: on the single-quoted input
`c10Src` the rule still produces its MatchResult, yet `countAllOccurrences`
reports 0 — structural matches can exceed the reported reference count.  On
the double-quoted input `c1mSrc` the count is 1. -/
theorem c10_count_double_quoted_only :
    gateNeedle = "\"".toList ++ GATE_NAME.toList ++ "\"".toList
    ∧ countAllOccurrences c10Src = 0
    ∧ ruleMatchFn c10Decl c10Src =
        some ⟨.vnum 13, .vnum 61,
              "(".toList ++ c10Original ++ "||".toList ++ ELECTRON_FORCE_EXPR ++ ")".toList,
              c10Original⟩
    ∧ countAllOccurrences c1mSrc = 1 :=
  ⟨rfl, rfl, rfl, rfl⟩

/-!
## Claims C3 and C7: check/apply equivalence and first-seen dedup
-/

/-- The projection under which check-mode reports and apply-mode patches are
compared: (start offset, rule id). -/
def scanKey (m : ScanMatch) : JsVal × String := (m.position, m.ruleId)

/-- The (start offset, rule id) key of a collected patch. -/
def patchKey (p : Patch) : JsVal × String := (p.start, p.ruleId)

theorem scan_collect_rule_step (source : Str) (node : JsVal) (rule : Rule)
    (sacc : List ScanMatch × List JsVal) (cacc : CollectAcc)
    (h1 : sacc.2 = cacc.seen) (h2 : sacc.1.map scanKey = cacc.patches.map patchKey) :
    (scanRuleStep source node sacc rule).2 = (collectRuleStep source node cacc rule).seen
    ∧ (scanRuleStep source node sacc rule).1.map scanKey
      = (collectRuleStep source node cacc rule).patches.map patchKey := by
  cases h : rule.matchFn node source with
  | none => exact ⟨by simp [scanRuleStep, collectRuleStep, h, h1],
                   by simp [scanRuleStep, collectRuleStep, h, h2]⟩
  | some r =>
    by_cases hs : r.start ∈ cacc.seen
    · constructor <;> simp [scanRuleStep, collectRuleStep, h, h1, h2, hs]
    · constructor <;> simp [scanRuleStep, collectRuleStep, h, h1, h2, hs, scanKey, patchKey]

theorem scan_collect_rules_fold (source : Str) (node : JsVal) :
    ∀ (rules : List Rule) (sacc : List ScanMatch × List JsVal) (cacc : CollectAcc),
      sacc.2 = cacc.seen → sacc.1.map scanKey = cacc.patches.map patchKey →
      (rules.foldl (scanRuleStep source node) sacc).2
        = (rules.foldl (collectRuleStep source node) cacc).seen
      ∧ (rules.foldl (scanRuleStep source node) sacc).1.map scanKey
        = (rules.foldl (collectRuleStep source node) cacc).patches.map patchKey := by
  intro rules
  induction rules with
  | nil => intro sacc cacc h1 h2; exact ⟨h1, h2⟩
  | cons rule rules ih =>
    intro sacc cacc h1 h2
    have hstep := scan_collect_rule_step source node rule sacc cacc h1 h2
    exact ih _ _ hstep.1 hstep.2

theorem scan_collect_nodes_fold (source : Str) :
    ∀ (nodes : List JsVal) (sacc : List ScanMatch × List JsVal) (cacc : CollectAcc),
      sacc.2 = cacc.seen → sacc.1.map scanKey = cacc.patches.map patchKey →
      (nodes.foldl (scanVisit source) sacc).2
        = (nodes.foldl (collectVisit source) cacc).seen
      ∧ (nodes.foldl (scanVisit source) sacc).1.map scanKey
        = (nodes.foldl (collectVisit source) cacc).patches.map patchKey := by
  intro nodes
  induction nodes with
  | nil => intro sacc cacc h1 h2; exact ⟨h1, h2⟩
  | cons node nodes ih =>
    intro sacc cacc h1 h2
    have hstep := scan_collect_rules_fold source node RULES sacc cacc h1 h2
    exact ih _ _ hstep.1 hstep.2

/-- Claim C3: for every parsed tree and source text, check mode and apply mode
accept exactly the same matches — the reports of `scanMatches` and the patches
of `collectPatches` project to the same list of (start offset, rule id) pairs,
in the same order (so in particular they are equal as sets). -/
theorem c3_scan_collect_equivalence (ast : JsVal) (source : Str) :
    (scanMatches ast source).map scanKey
      = (collectPatches ast source).patches.map patchKey :=
  (scan_collect_nodes_fold source (walkVisits ast) ([], []) ⟨[], [], []⟩ rfl rfl).2

/-- All rule matches over a node, in rule order, without deduplication. -/
def nodeMatches (source : Str) (node : JsVal) : List Patch :=
  RULES.filterMap (fun rule => (rule.matchFn node source).map
    (fun r => ⟨r.start, r.stop, r.replacement, r.original, rule.id⟩))

/-- All rule matches over the whole walk, in traversal order, without
deduplication. -/
def allMatches (ast : JsVal) (source : Str) : List Patch :=
  (walkVisits ast).flatMap (nodeMatches source)

/-- First-seen deduplication by `start` against an already-seen list. -/
def dedupByStart : List Patch → List JsVal → List Patch
  | [], _ => []
  | p :: rest, seen =>
    if p.start ∈ seen then dedupByStart rest seen
    else p :: dedupByStart rest (seen ++ [p.start])

theorem dedupByStart_append (xs ys : List Patch) :
    ∀ seen, dedupByStart (xs ++ ys) seen
      = dedupByStart xs seen
        ++ dedupByStart ys (seen ++ (dedupByStart xs seen).map (fun p => p.start)) := by
  induction xs with
  | nil => intro seen; simp [dedupByStart]
  | cons p xs ih =>
    intro seen
    by_cases hp : p.start ∈ seen
    · simp [dedupByStart, hp, ih]
    · simp only [List.cons_append, dedupByStart, if_neg hp, List.map_cons, List.append_eq]
      rw [ih (seen ++ [p.start])]
      simp [List.append_assoc]

theorem collect_rules_fold_dedup (source : Str) (node : JsVal) :
    ∀ (rules : List Rule) (cacc : CollectAcc),
      (rules.foldl (collectRuleStep source node) cacc).patches
        = cacc.patches
          ++ dedupByStart (rules.filterMap (fun rule => (rule.matchFn node source).map
               (fun r => ⟨r.start, r.stop, r.replacement, r.original, rule.id⟩))) cacc.seen
      ∧ (rules.foldl (collectRuleStep source node) cacc).seen
        = cacc.seen
          ++ (dedupByStart (rules.filterMap (fun rule => (rule.matchFn node source).map
               (fun r => ⟨r.start, r.stop, r.replacement, r.original, rule.id⟩))) cacc.seen).map
             (fun p => p.start) := by
  intro rules
  induction rules with
  | nil => intro cacc; simp [dedupByStart]
  | cons rule rules ih =>
    intro cacc
    rw [List.foldl_cons]
    cases h : rule.matchFn node source with
    | none =>
      have hred : collectRuleStep source node cacc rule = cacc := by
        simp [collectRuleStep, h]
      rw [hred]
      simpa only [List.filterMap_cons, h, Option.map_none] using ih cacc
    | some r =>
      by_cases hs : r.start ∈ cacc.seen
      · have hred : collectRuleStep source node cacc rule = cacc := by
          simp [collectRuleStep, h, hs]
        rw [hred]
        have hind := ih cacc
        simp only [List.filterMap_cons, h, Option.map_some, dedupByStart, if_pos hs]
        exact hind
      · have hred : collectRuleStep source node cacc rule
            = ⟨cacc.patches ++ [⟨r.start, r.stop, r.replacement, r.original, rule.id⟩],
               cacc.details ++ [⟨rule.id, r.start, r.original ++ " → ".toList ++ r.replacement⟩],
               cacc.seen ++ [r.start]⟩ := by
          simp [collectRuleStep, h, hs]
        rw [hred]
        have hind := ih ⟨cacc.patches ++ [⟨r.start, r.stop, r.replacement, r.original, rule.id⟩],
               cacc.details ++ [⟨rule.id, r.start, r.original ++ " → ".toList ++ r.replacement⟩],
               cacc.seen ++ [r.start]⟩
        simp only [List.filterMap_cons, h, Option.map_some, dedupByStart, if_neg hs]
        constructor
        · rw [hind.1]
          simp [List.append_assoc]
        · rw [hind.2]
          simp [List.append_assoc]

theorem collect_nodes_fold_dedup (source : Str) :
    ∀ (nodes : List JsVal) (cacc : CollectAcc),
      (nodes.foldl (collectVisit source) cacc).patches
        = cacc.patches ++ dedupByStart (nodes.flatMap (nodeMatches source)) cacc.seen
      ∧ (nodes.foldl (collectVisit source) cacc).seen
        = cacc.seen
          ++ (dedupByStart (nodes.flatMap (nodeMatches source)) cacc.seen).map
             (fun p => p.start) := by
  intro nodes
  induction nodes with
  | nil => intro cacc; simp [dedupByStart]
  | cons node nodes ih =>
    intro cacc
    have hstep := collect_rules_fold_dedup source node RULES cacc
    have hrest := ih (collectVisit source cacc node)
    have hstep1 : (collectVisit source cacc node).patches
        = cacc.patches ++ dedupByStart (nodeMatches source node) cacc.seen := by
      simpa [collectVisit, nodeMatches] using hstep.1
    have hstep2 : (collectVisit source cacc node).seen
        = cacc.seen ++ (dedupByStart (nodeMatches source node) cacc.seen).map
            (fun p => p.start) := by
      simpa [collectVisit, nodeMatches] using hstep.2
    constructor
    · rw [List.foldl_cons, hrest.1, hstep1, hstep2, List.flatMap_cons,
          dedupByStart_append, List.append_assoc]
    · rw [List.foldl_cons, hrest.2, hstep2, List.flatMap_cons, dedupByStart_append]
      simp [List.append_assoc]

theorem dedupByStart_nodup (l : List Patch) :
    ∀ seen, ((dedupByStart l seen).map (fun p => p.start)).Nodup
      ∧ ∀ x ∈ (dedupByStart l seen).map (fun p => p.start), x ∉ seen := by
  induction l with
  | nil => intro seen; simp [dedupByStart]
  | cons p rest ih =>
    intro seen
    by_cases hp : p.start ∈ seen
    · simpa [dedupByStart, hp] using ih seen
    · have hrest := ih (seen ++ [p.start])
      refine ⟨?_, ?_⟩
      · simp only [dedupByStart, if_neg hp, List.map_cons, List.nodup_cons]
        refine ⟨fun hmem => ?_, hrest.1⟩
        have := hrest.2 p.start hmem
        simp at this
      · intro x hx
        simp only [dedupByStart, if_neg hp, List.map_cons, List.mem_cons] at hx
        rcases hx with rfl | hx
        · exact hp
        · intro hxs
          exact hrest.2 x hx (by simp [hxs])

/-- Claim C7: the patch set built by `collectPatches` is exactly the
first-seen-by-`start` deduplication of the full match stream (so whenever two
matches report the same start offset only the first one in traversal order is
recorded), its recorded start offsets are pairwise distinct, and `scanMatches`
applies the same first-seen deduplication: its reported positions are the same
deduplicated start list. -/
theorem c7_dedup_first_seen (ast : JsVal) (source : Str) :
    (collectPatches ast source).patches = dedupByStart (allMatches ast source) []
    ∧ ((collectPatches ast source).patches.map (fun p => p.start)).Nodup
    ∧ (scanMatches ast source).map (fun m => m.position)
      = (dedupByStart (allMatches ast source) []).map (fun p => p.start) := by
  have hc := collect_nodes_fold_dedup source (walkVisits ast) ⟨[], [], []⟩
  have h1 : (collectPatches ast source).patches = dedupByStart (allMatches ast source) [] := by
    simpa [collectPatches, allMatches] using hc.1
  refine ⟨h1, ?_, ?_⟩
  · rw [h1]
    exact (dedupByStart_nodup (allMatches ast source) []).1
  · have hs := (scan_collect_nodes_fold source (walkVisits ast) ([], []) ⟨[], [], []⟩ rfl rfl).2
    have : (scanMatches ast source).map (fun m => m.position)
        = (collectPatches ast source).patches.map (fun p => p.start) := by
      have := congrArg (List.map Prod.fst) hs
      simpa [scanMatches, collectPatches, scanKey, patchKey, Function.comp] using this
    rw [this, h1]

/-!
## Claim C2: idempotence of the apply pipeline
-/

theorem ruleMatch_none_of_marker_in_init (node : JsVal) (source : Str)
    (h : ("window.codexWindowType".toList : Str) <:+:
         jsSlice source (numOr (getF (getF node "init") "start") 0)
                        (numOr (getF (getF node "init") "end") 0)) :
    ruleMatchFn node source = none := by
  have hb := (isSubstr_iff _ _).mpr h
  unfold ruleMatchFn
  cases hs : ruleStructOk node
  · rw [if_pos (by simp [hs])]
  · rw [if_neg (by simp [hs]), if_pos hb]

theorem ruleMatch_replacement_has_marker (node : JsVal) (source : Str) (r : MatchResult)
    (h : ruleMatchFn node source = some r) :
    ("window.codexWindowType".toList : Str) <:+: r.replacement := by
  unfold ruleMatchFn at h
  cases hs : ruleStructOk node <;> rw [hs] at h
  · simp at h
  rw [if_neg (by simp)] at h
  by_cases hm : isSubstr "window.codexWindowType".toList
      (jsSlice source (numOr (getF (getF node "init") "start") 0)
                      (numOr (getF (getF node "init") "end") 0)) = true
  · rw [if_pos hm] at h
    simp at h
  rw [if_neg hm] at h
  have hr : r = ⟨getF (getF node "init") "start", getF (getF node "init") "end",
      "(".toList
        ++ jsSlice source (numOr (getF (getF node "init") "start") 0)
                          (numOr (getF (getF node "init") "end") 0)
        ++ "||".toList ++ ELECTRON_FORCE_EXPR ++ ")".toList,
      jsSlice source (numOr (getF (getF node "init") "start") 0)
                     (numOr (getF (getF node "init") "end") 0)⟩ := by
    exact (Option.some_inj.mp h).symm
  rw [hr]
  have h1 : ("window.codexWindowType".toList : Str) <:+: ELECTRON_FORCE_EXPR := by decide
  refine h1.trans ?_
  refine ⟨"(".toList
        ++ jsSlice source (numOr (getF (getF node "init") "start") 0)
                          (numOr (getF (getF node "init") "end") 0)
        ++ "||".toList, ")".toList, ?_⟩
  simp [List.append_assoc]

theorem collect_empty_of_no_match (ast : JsVal) (s : Str)
    (h : ∀ node ∈ walkVisits ast, ruleMatchFn node s = none) :
    (collectPatches ast s).patches = [] := by
  have hc := (collect_nodes_fold_dedup s (walkVisits ast) ⟨[], [], []⟩).1
  have hall : (walkVisits ast).flatMap (nodeMatches s) = [] := by
    rw [List.flatMap_eq_nil_iff]
    intro node hnode
    simp [nodeMatches, RULES, slashCommandsRule, h node hnode]
  simpa [collectPatches, hall, dedupByStart] using hc

theorem applyOutput_id_of_no_match (ast : JsVal) (s : Str)
    (h : ∀ node ∈ walkVisits ast, ruleMatchFn node s = none) :
    applyOutput ast s = s := by
  have hc := collect_empty_of_no_match ast s h
  simp only [applyOutput, applyRun, hc]
  split_ifs <;> rfl

/-- Claim C2: idempotence of the patch engine.  The first conjunct is the
idempotence guard: whenever the initializer slice of a node already contains
the marker substring `window.codexWindowType`, the rule's match function
returns `null`.  The second conjunct shows every replacement a first apply
splices in contains that marker.  The third conjunct closes the loop for an
arbitrary parse function: when the rule matches no node of the re-parsed
output of a first apply — which is what the guard enforces on real re-parses,
since each patched initializer now carries the marker — the second apply
returns its input unchanged, so applying the engine twice equals applying it
once. -/
theorem c2_idempotence :
    (∀ node source, ("window.codexWindowType".toList : Str) <:+:
        jsSlice source (numOr (getF (getF node "init") "start") 0)
                       (numOr (getF (getF node "init") "end") 0) →
      ruleMatchFn node source = none)
    ∧ (∀ node source r, ruleMatchFn node source = some r →
        ("window.codexWindowType".toList : Str) <:+: r.replacement)
    ∧ (∀ (parseFn : Str → JsVal) (s : Str),
        (∀ node ∈ walkVisits (parseFn (applyOutput (parseFn s) s)),
          ruleMatchFn node (applyOutput (parseFn s) s) = none) →
        applyOutput (parseFn (applyOutput (parseFn s) s)) (applyOutput (parseFn s) s)
          = applyOutput (parseFn s) s) :=
  ⟨ruleMatch_none_of_marker_in_init,
   ruleMatch_replacement_has_marker,
   fun _ _ h => applyOutput_id_of_no_match _ _ h⟩

/-- A node whose `init` range points into the already-patched region of the
patched example output (used to exercise the idempotence guard). -/
def c2MarkedNode : JsVal :=
  .vobj [("init", .vobj [("start", .vnum 13), ("end", .vnum 101)])]

/-- A concrete parse function for the idempotence witness: the real tree for
the example input, and a comment-free empty program for other texts. -/
def c2ParseFn (t : Str) : JsVal :=
  if t = c1mSrc then c1mAst else emptyProgram t.length

/-- Witness for C2 at concrete inputs: the guard fires on a marked
initializer, the example's replacement carries the marker, and a second apply
over `c2ParseFn` leaves the patched example output unchanged. -/
theorem c2_idempotence_witness :
    ruleMatchFn c2MarkedNode c1mExpectedOut = none
    ∧ (("window.codexWindowType".toList : Str) <:+:
        (("(w.useGateValue(\"codex-extension-slash-commands\")||window.codexWindowType===\"electron\")".toList : Str)))
    ∧ applyOutput (c2ParseFn (applyOutput (c2ParseFn c1mSrc) c1mSrc))
        (applyOutput (c2ParseFn c1mSrc) c1mSrc) = applyOutput (c2ParseFn c1mSrc) c1mSrc := by
  refine ⟨?_, ?_, ?_⟩
  · exact c2_idempotence.1 c2MarkedNode c1mExpectedOut (by decide)
  · exact c2_idempotence.2.1 c1mDecl c1mSrc
      ⟨.vnum 13, .vnum 61,
        "(w.useGateValue(\"codex-extension-slash-commands\")||window.codexWindowType===\"electron\")".toList,
        "w.useGateValue(\"codex-extension-slash-commands\")".toList⟩ rfl
  · exact c2_idempotence.2.2 c2ParseFn c1mSrc (by decide)

/-!
## Claim C8: the walker visits every reachable node exactly once, in pre-order

Node occurrences are addressed by paths: a step descends either through an
object field holding a typed node, or through an element (with its index) of
an array-valued field.  `pathsFrom v` enumerates, in visit order, the path of
every node occurrence `walk` recurses into; `resolvePath` replays a path
against the tree.  Exactly-once and pre-order are then: the path list has no
duplicates, resolving it pointwise yields exactly the visit list of `walk`,
no path is preceded by one of its descendants, and the list is closed under
ancestors.
-/

/-- One descent step: a field whose value is a typed node, or the `i`-th
element (a typed node) of an array-valued field. -/
inductive Step where
  | fld (k : String)
  | idx (k : String) (i : Nat)
deriving DecidableEq

/-- The field key a step descends through. -/
def stepKey : Step → String
  | .fld k => k
  | .idx k _ => k

/-- Replay one step against a node: exactly the children `walk` recurses
into. -/
def stepChild (v : JsVal) : Step → Option JsVal
  | .fld k => if isTypedNode (getF v k) then some (getF v k) else none
  | .idx k i =>
    match getF v k with
    | .varr items =>
      match items.get? i with
      | some it => if isTypedNode it then some it else none
      | none => none
    | _ => none

/-- Replay a path against a node. -/
def resolvePath (v : JsVal) : List Step → Option JsVal
  | [] => some v
  | st :: p =>
    match stepChild v st with
    | some c => resolvePath c p
    | none => none

mutual
/-- Paths of the node occurrences visited while walking a field list, in
visit order. -/
def pathsFields : List (String × JsVal) → List (List Step)
  | [] => []
  | (k, c) :: rest => pathsVal k c ++ pathsFields rest
/-- Paths contributed by one field value. -/
def pathsVal (k : String) : JsVal → List (List Step)
  | .varr items => pathsIdx k 0 items
  | .vobj fs =>
    if isTypedNode (.vobj fs)
    then (([] : List Step) :: pathsFields fs).map (fun p => Step.fld k :: p)
    else []
  | _ => []
/-- Paths contributed by the elements of an array-valued field, starting at
element index `i`. -/
def pathsIdx (k : String) (i : Nat) : List JsVal → List (List Step)
  | [] => []
  | it :: rest => pathsItem k i it ++ pathsIdx k (i + 1) rest
/-- Paths contributed by one array element. -/
def pathsItem (k : String) (i : Nat) : JsVal → List (List Step)
  | .vobj fs =>
    if isTypedNode (.vobj fs)
    then (([] : List Step) :: pathsFields fs).map (fun p => Step.idx k i :: p)
    else []
  | _ => []
end

/-- Paths of all node occurrences visited by `walk` from a typed root, in
visit order (the empty path is the root itself). -/
def pathsFrom (v : JsVal) : List (List Step) :=
  match v with
  | .vobj fields => [] :: pathsFields fields
  | _ => [[]]

/-- Keys of a field list. -/
def keysOf (fields : List (String × JsVal)) : List String :=
  fields.map Prod.fst

/-- No key occurs twice (JavaScript objects cannot have duplicate keys; the
field-list model can, so well-formedness excludes it). -/
def distinctKeys : List String → Bool
  | [] => true
  | k :: rest => !rest.contains k && distinctKeys rest

mutual
/-- Well-formedness of a modelled JavaScript value: every object in the tree
has pairwise-distinct field keys. -/
def wfKeys : JsVal → Bool
  | .vobj fields => distinctKeys (keysOf fields) && wfFields fields
  | .varr items => wfList items
  | _ => true
def wfFields : List (String × JsVal) → Bool
  | [] => true
  | (_, c) :: rest => wfKeys c && wfFields rest
def wfList : List JsVal → Bool
  | [] => true
  | it :: rest => wfKeys it && wfList rest
end

/-- The full correctness property of the walker at a root `v`: the reachable
paths are pairwise distinct, resolve exactly (and in order) to the visit list
of `walk`, are never preceded by a descendant, and are closed under taking
ancestors. -/
def WalkGood (v : JsVal) : Prop :=
  (pathsFrom v).Nodup
  ∧ (pathsFrom v).map (resolvePath v) = (walkVisits v).map some
  ∧ (pathsFrom v).Pairwise (fun p q => ¬ q <+: p)
  ∧ ∀ p ∈ pathsFrom v, ∀ q : List Step, q <+: p → q ∈ pathsFrom v

theorem lookupF_of_mem_distinct :
    ∀ (fields : List (String × JsVal)) (k : String) (c : JsVal),
      distinctKeys (keysOf fields) = true → (k, c) ∈ fields → lookupF fields k = c := by
  intro fields
  induction fields with
  | nil => simp
  | cons f rest ih =>
    obtain ⟨k', v'⟩ := f
    intro k c hd hm
    simp only [keysOf, List.map_cons, distinctKeys, Bool.and_eq_true, Bool.not_eq_true'] at hd
    rcases List.mem_cons.mp hm with he | hm
    · obtain ⟨rfl, rfl⟩ := Prod.mk.injEq .. ▸ he
      · simp [lookupF]
    · have hk : k ∈ keysOf rest := List.mem_map_of_mem Prod.fst hm
      have hne : k' ≠ k := by
        intro he
        subst he
        have hcont : (List.map Prod.fst rest).contains k' = true := by
          rw [List.elem_iff]
          simpa [keysOf] using hk
        rw [hd.1] at hcont
        cases hcont
      rw [lookupF, if_neg hne]
      exact ih k c hd.2 hm

theorem wfFields_mem :
    ∀ (fields : List (String × JsVal)), wfFields fields = true →
      ∀ k c, (k, c) ∈ fields → wfKeys c = true := by
  intro fields
  induction fields with
  | nil => simp
  | cons f rest ih =>
    obtain ⟨k', v'⟩ := f
    intro hw k c hm
    rw [wfFields, Bool.and_eq_true] at hw
    rcases List.mem_cons.mp hm with he | hm
    · obtain ⟨rfl, rfl⟩ := Prod.mk.injEq .. ▸ he
      · exact hw.1
    · exact ih hw.2 k c hm

theorem wfList_mem :
    ∀ (items : List JsVal), wfList items = true → ∀ it ∈ items, wfKeys it = true := by
  intro items
  induction items with
  | nil => simp
  | cons x rest ih =>
    intro hw it hm
    rw [wfList, Bool.and_eq_true] at hw
    rcases List.mem_cons.mp hm with rfl | hm
    · exact hw.1
    · exact ih hw.2 it hm

theorem sizeOf_field_val_lt :
    ∀ (fields : List (String × JsVal)) (k : String) (c : JsVal),
      (k, c) ∈ fields → sizeOf c < sizeOf (JsVal.vobj fields) := by
  intro fields k c hm
  have h1 : sizeOf (k, c) < sizeOf fields := List.sizeOf_lt_of_mem hm
  have h2 : sizeOf c < sizeOf (k, c) := by simp
  simp
  omega

theorem sizeOf_item_lt :
    ∀ (items : List JsVal) (it : JsVal), it ∈ items → sizeOf it < sizeOf (JsVal.varr items) := by
  intro items it hm
  have h1 : sizeOf it < sizeOf items := List.sizeOf_lt_of_mem hm
  simp
  omega

theorem typed_is_vobj : ∀ v : JsVal, isTypedNode v = true → ∃ fields, v = .vobj fields := by
  intro v hty
  cases v <;> first
    | exact ⟨_, rfl⟩
    | simp [isTypedNode, getF] at hty

theorem consBlock (v : JsVal) (st : Step) (c : JsVal)
    (hstep : stepChild v st = some c) (hgood : WalkGood c) :
    ((pathsFrom c).map (fun p => st :: p)).map (resolvePath v) = (walkVisits c).map some
    ∧ ((pathsFrom c).map (fun p => st :: p)).Nodup
    ∧ ((pathsFrom c).map (fun p => st :: p)).Pairwise (fun p q => ¬ q <+: p)
    ∧ (∀ p ∈ (pathsFrom c).map (fun p => st :: p), ∃ tl, p = st :: tl)
    ∧ (∀ p ∈ (pathsFrom c).map (fun p => st :: p), ∀ q : List Step, q <+: p →
         q = [] ∨ q ∈ (pathsFrom c).map (fun p => st :: p)) := by
  obtain ⟨hnodup, hmap, hpair, hclosed⟩ := hgood
  refine ⟨?_, ?_, ?_, ?_, ?_⟩
  · rw [List.map_map]
    rw [← hmap]
    refine List.map_congr_left ?_
    intro p _
    simp [Function.comp, resolvePath, hstep]
  · exact hnodup.map List.cons_injective
  · rw [List.pairwise_map]
    refine hpair.imp ?_
    intro p q hpq hcon
    exact hpq ((List.cons_prefix_cons.mp hcon).2)
  · intro p hp
    obtain ⟨p', _, rfl⟩ := List.mem_map.mp hp
    exact ⟨p', rfl⟩
  · intro p hp q hq
    obtain ⟨p', hp', rfl⟩ := List.mem_map.mp hp
    cases q with
    | nil => exact Or.inl rfl
    | cons st' q' =>
      obtain ⟨rfl, hq'⟩ := List.cons_prefix_cons.mp hq
      exact Or.inr (List.mem_map.mpr ⟨q', hclosed p' hp' q' hq', rfl⟩)

theorem itemsBlock (B : Nat)
    (IH : ∀ u : JsVal, sizeOf u < B → isTypedNode u = true → wfKeys u = true → WalkGood u)
    (v : JsVal) (k : String) (items : List JsVal)
    (hk : getF v k = .varr items) :
    ∀ (sub : List JsVal) (i0 : Nat),
      (∀ j, j < sub.length → items.get? (i0 + j) = sub.get? j) →
      (∀ it ∈ sub, sizeOf it < B) →
      (∀ it ∈ sub, wfKeys it = true) →
      (pathsIdx k i0 sub).map (resolvePath v) = (walkItems sub).map some
      ∧ (pathsIdx k i0 sub).Nodup
      ∧ (pathsIdx k i0 sub).Pairwise (fun p q => ¬ q <+: p)
      ∧ (∀ p ∈ pathsIdx k i0 sub, ∃ i tl, p = Step.idx k i :: tl ∧ i0 ≤ i)
      ∧ (∀ p ∈ pathsIdx k i0 sub, ∀ q : List Step, q <+: p → q = [] ∨ q ∈ pathsIdx k i0 sub) := by
  intro sub
  induction sub with
  | nil => intro i0 _ _ _; simp [pathsIdx, walkItems]
  | cons it rest ih =>
    intro i0 hx hsz hwf
    have hxr : ∀ j, j < rest.length → items.get? (i0 + 1 + j) = rest.get? j := by
      intro j hj
      have h1 := hx (j + 1) (by simp; omega)
      rw [show i0 + (j + 1) = i0 + 1 + j by omega] at h1
      simpa using h1
    have hrest := ih (i0 + 1) hxr (fun u hu => hsz u (List.mem_cons_of_mem _ hu))
      (fun u hu => hwf u (List.mem_cons_of_mem _ hu))
    have hhead :
        (pathsItem k i0 it).map (resolvePath v) = (walkItem it).map some
        ∧ (pathsItem k i0 it).Nodup
        ∧ (pathsItem k i0 it).Pairwise (fun p q => ¬ q <+: p)
        ∧ (∀ p ∈ pathsItem k i0 it, ∃ tl, p = Step.idx k i0 :: tl)
        ∧ (∀ p ∈ pathsItem k i0 it, ∀ q : List Step, q <+: p →
             q = [] ∨ q ∈ pathsItem k i0 it) := by
      cases it with
      | vobj fs =>
        cases hty : isTypedNode (.vobj fs) with
        | false => simp [pathsItem, walkItem, hty]
        | true =>
          have h0 : items.get? i0 = some (JsVal.vobj fs) := by
            have h1 := hx 0 (by simp)
            simpa using h1
          have h0g : items[i0]? = some (JsVal.vobj fs) := by
            rw [← List.get?_eq_getElem?]
            exact h0
          have hstep : stepChild v (Step.idx k i0) = some (.vobj fs) := by
            simp [stepChild, hk, h0g, hty]
          have hgood : WalkGood (JsVal.vobj fs) :=
            IH _ (hsz _ (List.mem_cons_self _ _)) hty (hwf _ (List.mem_cons_self _ _))
          have hcb := consBlock v (Step.idx k i0) (.vobj fs) hstep hgood
          have hpv : pathsItem k i0 (JsVal.vobj fs)
              = (pathsFrom (JsVal.vobj fs)).map (fun p => Step.idx k i0 :: p) := by
            simp [pathsItem, hty, pathsFrom]
          have hwv : walkItem (JsVal.vobj fs) = walkVisits (JsVal.vobj fs) := by
            simp [walkItem, hty, walkVisits]
          rw [hpv, hwv]
          exact hcb
      | vnull => simp [pathsItem, walkItem]
      | vundefined => simp [pathsItem, walkItem]
      | vbool b => simp [pathsItem, walkItem]
      | vnum n => simp [pathsItem, walkItem]
      | vstr s => simp [pathsItem, walkItem]
      | varr xs => simp [pathsItem, walkItem]
    simp only [pathsIdx, walkItems]
    refine ⟨?_, ?_, ?_, ?_, ?_⟩
    · rw [List.map_append, List.map_append, hhead.1, hrest.1]
    · refine hhead.2.1.append hrest.2.1 ?_
      intro p hp1 hp2
      obtain ⟨tl, rfl⟩ := hhead.2.2.2.1 p hp1
      obtain ⟨i, tl', heq, hi⟩ := hrest.2.2.2.1 _ hp2
      simp only [List.cons.injEq, Step.idx.injEq] at heq
      omega
    · rw [List.pairwise_append]
      refine ⟨hhead.2.2.1, hrest.2.2.1, ?_⟩
      intro p hp q hq hcon
      obtain ⟨tl, rfl⟩ := hhead.2.2.2.1 p hp
      obtain ⟨i, tl', rfl, hi⟩ := hrest.2.2.2.1 q hq
      obtain ⟨hhd, _⟩ := List.cons_prefix_cons.mp hcon
      simp only [Step.idx.injEq] at hhd
      omega
    · intro p hp
      rcases List.mem_append.mp hp with h | h
      · obtain ⟨tl, rfl⟩ := hhead.2.2.2.1 p h
        exact ⟨i0, tl, rfl, Nat.le_refl _⟩
      · obtain ⟨i, tl, rfl, hi⟩ := hrest.2.2.2.1 p h
        exact ⟨i, tl, rfl, by omega⟩
    · intro p hp q hq
      rcases List.mem_append.mp hp with h | h
      · rcases hhead.2.2.2.2 p h q hq with rfl | hmem
        · exact Or.inl rfl
        · exact Or.inr (List.mem_append_left _ hmem)
      · rcases hrest.2.2.2.2 p h q hq with rfl | hmem
        · exact Or.inl rfl
        · exact Or.inr (List.mem_append_right _ hmem)

theorem fieldsBlock (B : Nat)
    (IH : ∀ u : JsVal, sizeOf u < B → isTypedNode u = true → wfKeys u = true → WalkGood u)
    (v : JsVal) :
    ∀ (sub : List (String × JsVal)),
      (∀ k c, (k, c) ∈ sub → getF v k = c) →
      (∀ k c, (k, c) ∈ sub → sizeOf c < B) →
      (∀ k c, (k, c) ∈ sub → wfKeys c = true) →
      distinctKeys (keysOf sub) = true →
      (pathsFields sub).map (resolvePath v) = (walkFields sub).map some
      ∧ (pathsFields sub).Nodup
      ∧ (pathsFields sub).Pairwise (fun p q => ¬ q <+: p)
      ∧ (∀ p ∈ pathsFields sub, ∃ st tl, p = st :: tl ∧ stepKey st ∈ keysOf sub)
      ∧ (∀ p ∈ pathsFields sub, ∀ q : List Step, q <+: p → q = [] ∨ q ∈ pathsFields sub) := by
  intro sub
  induction sub with
  | nil => intro _ _ _ _; simp [pathsFields, walkFields]
  | cons f rest ih =>
    obtain ⟨k, c⟩ := f
    intro hget hsz hwf hdk
    simp only [keysOf, List.map_cons, distinctKeys, Bool.and_eq_true, Bool.not_eq_true'] at hdk
    have hknr : k ∉ keysOf rest := by
      intro hmem
      have hc : (List.map Prod.fst rest).contains k = true := by
        rw [List.elem_iff]
        simpa [keysOf] using hmem
      rw [hdk.1] at hc
      cases hc
    have hrest := ih (fun k' c' h => hget k' c' (List.mem_cons_of_mem _ h))
      (fun k' c' h => hsz k' c' (List.mem_cons_of_mem _ h))
      (fun k' c' h => hwf k' c' (List.mem_cons_of_mem _ h))
      (by simpa [keysOf] using hdk.2)
    have hgetc : getF v k = c := hget k c (List.mem_cons_self _ _)
    have hszc : sizeOf c < B := hsz k c (List.mem_cons_self _ _)
    have hwfc : wfKeys c = true := hwf k c (List.mem_cons_self _ _)
    have hchild :
        (pathsVal k c).map (resolvePath v) = (walkVal c).map some
        ∧ (pathsVal k c).Nodup
        ∧ (pathsVal k c).Pairwise (fun p q => ¬ q <+: p)
        ∧ (∀ p ∈ pathsVal k c, ∃ st tl, p = st :: tl ∧ stepKey st = k)
        ∧ (∀ p ∈ pathsVal k c, ∀ q : List Step, q <+: p → q = [] ∨ q ∈ pathsVal k c) := by
      cases c with
      | vobj fs =>
        cases hty : isTypedNode (.vobj fs) with
        | false => simp [pathsVal, walkVal, hty]
        | true =>
          have hstep : stepChild v (Step.fld k) = some (.vobj fs) := by
            simp [stepChild, hgetc, hty]
          have hgood : WalkGood (JsVal.vobj fs) := IH _ hszc hty hwfc
          have hcb := consBlock v (Step.fld k) (.vobj fs) hstep hgood
          have hpv : pathsVal k (JsVal.vobj fs)
              = (pathsFrom (JsVal.vobj fs)).map (fun p => Step.fld k :: p) := by
            simp [pathsVal, hty, pathsFrom]
          have hwv : walkVal (JsVal.vobj fs) = walkVisits (JsVal.vobj fs) := by
            simp [walkVal, hty, walkVisits]
          rw [hpv, hwv]
          refine ⟨hcb.1, hcb.2.1, hcb.2.2.1, ?_, hcb.2.2.2.2⟩
          intro p hp
          obtain ⟨tl, rfl⟩ := hcb.2.2.2.1 p hp
          exact ⟨Step.fld k, tl, rfl, rfl⟩
      | varr xs =>
        have hib := itemsBlock B IH v k xs hgetc xs 0 (by simp)
          (fun it hit => Nat.lt_trans (sizeOf_item_lt xs it hit) hszc)
          (wfList_mem xs (by simpa [wfKeys] using hwfc))
        have hpv : pathsVal k (JsVal.varr xs) = pathsIdx k 0 xs := rfl
        have hwv : walkVal (JsVal.varr xs) = walkItems xs := rfl
        rw [hpv, hwv]
        refine ⟨hib.1, hib.2.1, hib.2.2.1, ?_, hib.2.2.2.2⟩
        intro p hp
        obtain ⟨i, tl, rfl, _⟩ := hib.2.2.2.1 p hp
        exact ⟨Step.idx k i, tl, rfl, rfl⟩
      | vnull => simp [pathsVal, walkVal]
      | vundefined => simp [pathsVal, walkVal]
      | vbool b => simp [pathsVal, walkVal]
      | vnum n => simp [pathsVal, walkVal]
      | vstr s => simp [pathsVal, walkVal]
    simp only [pathsFields, walkFields]
    refine ⟨?_, ?_, ?_, ?_, ?_⟩
    · rw [List.map_append, List.map_append, hchild.1, hrest.1]
    · refine hchild.2.1.append hrest.2.1 ?_
      intro p hp1 hp2
      obtain ⟨st, tl, rfl, hkey⟩ := hchild.2.2.2.1 p hp1
      obtain ⟨st', tl', heq, hkey'⟩ := hrest.2.2.2.1 _ hp2
      obtain ⟨rfl, -⟩ := List.cons.injEq .. ▸ heq
      · exact hknr (hkey ▸ hkey')
    · rw [List.pairwise_append]
      refine ⟨hchild.2.2.1, hrest.2.2.1, ?_⟩
      intro p hp q hq hcon
      obtain ⟨st, tl, rfl, hkey⟩ := hchild.2.2.2.1 p hp
      obtain ⟨st', tl', rfl, hkey'⟩ := hrest.2.2.2.1 q hq
      obtain ⟨rfl, -⟩ := List.cons_prefix_cons.mp hcon
      exact hknr (hkey ▸ hkey')
    · intro p hp
      rcases List.mem_append.mp hp with h | h
      · obtain ⟨st, tl, rfl, hkey⟩ := hchild.2.2.2.1 p h
        exact ⟨st, tl, rfl, by simp [keysOf, hkey]⟩
      · obtain ⟨st, tl, rfl, hkey⟩ := hrest.2.2.2.1 p h
        refine ⟨st, tl, rfl, ?_⟩
        simp only [keysOf, List.map_cons, List.mem_cons]
        exact Or.inr (by simpa [keysOf] using hkey)
    · intro p hp q hq
      rcases List.mem_append.mp hp with h | h
      · rcases hchild.2.2.2.2 p h q hq with rfl | hmem
        · exact Or.inl rfl
        · exact Or.inr (List.mem_append_left _ hmem)
      · rcases hrest.2.2.2.2 p h q hq with rfl | hmem
        · exact Or.inl rfl
        · exact Or.inr (List.mem_append_right _ hmem)

theorem walkGood_of_wf : ∀ (B : Nat) (v : JsVal), sizeOf v ≤ B →
    isTypedNode v = true → wfKeys v = true → WalkGood v := by
  intro B
  induction B with
  | zero =>
    intro v hv _ _
    exfalso
    cases v <;> simp at hv
  | succ B ihB =>
    intro v hv hty hwf
    obtain ⟨fields, rfl⟩ := typed_is_vobj v hty
    rw [wfKeys, Bool.and_eq_true] at hwf
    have IH : ∀ u : JsVal, sizeOf u < sizeOf (JsVal.vobj fields) →
        isTypedNode u = true → wfKeys u = true → WalkGood u := by
      intro u hu ht hw
      exact ihB u (by omega) ht hw
    have hfb := fieldsBlock (sizeOf (JsVal.vobj fields)) IH (JsVal.vobj fields) fields
      (fun k c h => lookupF_of_mem_distinct fields k c hwf.1 h)
      (fun k c h => sizeOf_field_val_lt fields k c h)
      (fun k c h => wfFields_mem fields hwf.2 k c h)
      hwf.1
    refine ⟨?_, ?_, ?_, ?_⟩
    · show (([] : List Step) :: pathsFields fields).Nodup
      rw [List.nodup_cons]
      refine ⟨?_, hfb.2.1⟩
      intro hmem
      obtain ⟨st, tl, heq, -⟩ := hfb.2.2.2.1 [] hmem
      cases heq
    · show List.map (resolvePath (JsVal.vobj fields)) (([] : List Step) :: pathsFields fields)
        = List.map some (JsVal.vobj fields :: walkFields fields)
      rw [List.map_cons, List.map_cons, hfb.1]
      rfl
    · show List.Pairwise (fun p q => ¬ q <+: p) (([] : List Step) :: pathsFields fields)
      rw [List.pairwise_cons]
      refine ⟨?_, hfb.2.2.1⟩
      intro q hq hcon
      obtain ⟨st, tl, rfl, -⟩ := hfb.2.2.2.1 q hq
      cases List.prefix_nil.mp hcon
    · intro p hp q hq
      rcases List.mem_cons.mp hp with rfl | hp
      · rw [List.prefix_nil.mp hq]
        exact List.mem_cons_self _ _
      · rcases hfb.2.2.2.2 p hp q hq with rfl | hmem
        · exact List.mem_cons_self _ _
        · exact List.mem_cons_of_mem _ hmem

/-- Claim C8: for every (necessarily acyclic) tree value whose root carries a
string `type` tag and whose objects have pairwise-distinct keys, `walk`
invokes the visitor exactly once on every node occurrence reachable through
typed object-valued fields and typed elements of array-valued fields, in
pre-order.  Formally, over the path enumeration of reachable occurrences:
the paths are pairwise distinct, resolving them pointwise yields exactly the
visit list of `walk` in order (so each reachable occurrence is visited, and
visited once), no path is listed after any of its extensions (with the
closure clause this puts every ancestor — in particular the parent — strictly
before each of its descendants), and the enumeration is closed under
ancestors. -/
theorem c8_walk_preorder_exactly_once (v : JsVal)
    (hty : isTypedNode v = true) (hwf : wfKeys v = true) :
    (pathsFrom v).Nodup
    ∧ (pathsFrom v).map (resolvePath v) = (walkVisits v).map some
    ∧ (pathsFrom v).Pairwise (fun p q => ¬ q <+: p)
    ∧ ∀ p ∈ pathsFrom v, ∀ q : List Step, q <+: p → q ∈ pathsFrom v :=
  walkGood_of_wf (sizeOf v) v (Nat.le_refl _) hty hwf

/-- Witness for C8 at a concrete input: the parse tree of the member-call
example. -/
theorem c8_walk_preorder_exactly_once_witness :
    isTypedNode c1mAst = true
    ∧ wfKeys c1mAst = true
    ∧ ((pathsFrom c1mAst).Nodup
       ∧ (pathsFrom c1mAst).map (resolvePath c1mAst) = (walkVisits c1mAst).map some
       ∧ (pathsFrom c1mAst).Pairwise (fun p q => ¬ q <+: p)
       ∧ ∀ p ∈ pathsFrom c1mAst, ∀ q : List Step, q <+: p → q ∈ pathsFrom c1mAst) :=
  ⟨rfl, rfl, c8_walk_preorder_exactly_once c1mAst rfl rfl⟩
